import Mathlib

/-!
Verification development for the removeAutoNumbering repository.

The repository mutates Word documents through the Word COM automation
interface.  The shallow embedding below models paragraph text as `List Char`
(Python `str`), the Word paragraph metadata that the code reads and writes as
explicit fields of a `Par` structure, and the Flask job registry as explicit
state.  Python string helpers (`strip`, `lower`, `startswith`, the `re`
patterns used by the code) are translated char by char; the translation
covers ASCII whitespace and letter case, which is the alphabet the heuristics
target (Python additionally folds some non-ASCII characters, which none of the
string constants of the program contain).
-/

/-- ASCII whitespace, the characters matched by Python `\s` / stripped by
`str.strip()` on ASCII text: space, tab, newline, carriage return, vertical
tab, form feed. -/
def isPySpace (c : Char) : Bool :=
  c = ' ' || c = '\t' || c = '\n' || c = '\r' || c = '\x0b' || c = '\x0c'

/-- Python `str.strip()`: remove leading and trailing whitespace. -/
def pstrip (l : List Char) : List Char :=
  ((l.dropWhile isPySpace).reverse.dropWhile isPySpace).reverse

/-- Python `str.lower()` (ASCII case folding). -/
def toLowerL (l : List Char) : List Char := l.map Char.toLower

/-- Python `text.lower().startswith(pat)` for a lowercase literal `pat`. -/
def lowerStartsWith (pat l : List Char) : Bool := pat.isPrefixOf (toLowerL l)

/-- Case-insensitive "starts with": both pattern and text are case folded.
Used to state claim-side properties about the "Answer"/"Explanation" guard. -/
def ciStartsWith (pat l : List Char) : Bool :=
  (toLowerL pat).isPrefixOf (toLowerL l)

/-! ## Word list-type constants (WdListType), as read through
`win32com.client.constants` in converter.py / rmAutoNum.py. -/

def wdListNoNumbering : Int := 0

def wdListListNumOnly : Int := 1

def wdListBullet : Int := 2

def wdListSimpleNumbering : Int := 3

def wdListOutlineNumbering : Int := 4

def wdListMixedNumbering : Int := 5

/-- A Word paragraph, restricted to the data the program reads or writes:
`text` is `p.Range.Text` (which in Word excludes the generated list number and
normally ends with the paragraph mark `'\r'`), `numberText` is the literal
text that `ListFormat.ConvertNumbersToText()` materializes in front of the
paragraph text (the generated number together with its number/text separator,
a tab by default in Word), `listType` is `ListFormat.ListType`,
`listLevelNumber` is `ListFormat.ListLevelNumber`, and the two indents are
`p.LeftIndent` / `p.FirstLineIndent` (in points; modelled as integers since
the program only ever writes the value 0 to them). -/
structure Par where
  numberText : List Char
  text : List Char
  listType : Int
  listLevelNumber : Int
  leftIndent : Int
  firstLineIndent : Int
deriving DecidableEq, Inhabited

def answerLit : List Char := "answer".data

def explanationLit : List Char := "explanation".data

/-- converter.py lines 12-34 (identical in rmAutoNum.py lines 7-29):
heuristic recognizing top-level auto-numbered question paragraphs. -/
def is_question_paragraph (p : Par) : Bool :=
  let text := pstrip p.text
  if lowerStartsWith answerLit text || lowerStartsWith explanationLit text then
    false
  else
    let is_list : Bool := decide (p.listType ≠ wdListNoNumbering)
    let is_numbered : Bool :=
      (decide (p.listType = wdListOutlineNumbering) ||
        decide (p.listType = wdListSimpleNumbering)) ||
      decide (p.listType = wdListListNumOnly)
    let at_top_level : Bool := decide (p.listLevelNumber = 1)
    is_list && is_numbered && at_top_level

/-! ## The regex normalization step of convert_questions_to_text

converter.py lines 110-121 (rmAutoNum.py lines 59-72): on the paragraph text
without its trailing `'\r'`, the code matches the Python pattern
`^(\d+[\.\)]\s?)(.+)$` and, when the captured lead does not end in a space,
rewrites the text to `lead + ' ' + rest`.  The matcher below reproduces the
pattern's semantics: `\d+` is greedy (backtracking it can never help because
the following class `[\.\)]` accepts no digit), `\s?` is greedy but backs off
when `(.+)` would be left empty, `.` matches any character except `'\n'`, and
`$` matches at the end of the string or just before a single trailing
`'\n'`. -/

/-- Semantics of `(.+)$` at the end of the pattern: the whole remainder when
it is nonempty and newline-free, the remainder minus a single trailing
newline when that prefix is nonempty and newline-free, no match otherwise. -/
def dotPlusEnd (l : List Char) : Option (List Char) :=
  if l = [] then none
  else if ('\n') ∉ l then some l
  else if l.getLast? = some ('\n') ∧ l.dropLast ≠ [] ∧ ('\n') ∉ l.dropLast then
    some l.dropLast
  else none

/-- `re.match(r'^(\d+[\.\)]\s?)(.+)$', core)`: returns the two captured
groups `(lead, rest)` on success. -/
def reMatch (core : List Char) : Option (List Char × List Char) :=
  let ds := core.takeWhile Char.isDigit
  if ds = [] then none
  else
    match core.dropWhile Char.isDigit with
    | [] => none
    | c0 :: r2 =>
      if c0 = '.' ∨ c0 = ')' then
        match r2 with
        | [] => none
        | c1 :: r3 =>
          if isPySpace c1 then
            match dotPlusEnd r3 with
            | some rest => some (ds ++ [c0, c1], rest)
            | none =>
              match dotPlusEnd r2 with
              | some rest => some (ds ++ [c0], rest)
              | none => none
          else
            match dotPlusEnd r2 with
            | some rest => some (ds ++ [c0], rest)
            | none => none
      else none

/-- The space-normalization on the core text: when the pattern matches and
the lead does not end in a space, insert one between lead and rest; otherwise
leave the text as it was. -/
def fixSpace (core : List Char) : List Char :=
  match reMatch core with
  | none => core
  | some (lead, rest) =>
    if lead.getLast? = some (' ') then core else lead ++ (' ') :: rest

/-- The whole text rewrite of the loop body: the code strips one trailing
`'\r'` (the paragraph mark) before matching and re-appends it when writing
back. -/
def fixText (txt : List Char) : List Char :=
  if txt.getLast? = some ('\r') then fixSpace txt.dropLast ++ [('\r')]
  else fixSpace txt

/-- The effect of `p.Range.ListFormat.ConvertNumbersToText()`, modelled from
the Word automation interface: for a paragraph that carries list formatting
the generated number text becomes literal text in front of the paragraph
text and the list formatting is removed; on a paragraph without list
formatting the call raises and the code ignores it. -/
def convertNumbersToText (p : Par) : Par :=
  if p.listType ≠ wdListNoNumbering then
    { p with text := p.numberText ++ p.text
             numberText := []
             listType := wdListNoNumbering }
  else p

/-- The loop body of convert_questions_to_text applied to one collected
target paragraph: convert the numbering to text, zero both indents, then
normalize the space after the number. -/
def processTarget (p : Par) : Par :=
  let p1 := convertNumbersToText p
  let p2 := { p1 with leftIndent := 0, firstLineIndent := 0 }
  { p2 with text := fixText p2.text }

/-- One paragraph of the document after convert_questions_to_text: targets
are collected with is_question_paragraph before any mutation, then each
target is rewritten in place; other paragraphs are untouched. -/
def processOne (p : Par) : Par :=
  if is_question_paragraph p then processTarget p else p

/-- converter.py lines 80-129 (rmAutoNum.py lines 31-72), restricted to the
document mutation: the per-paragraph rewrite of every matched paragraph. -/
def convert_questions_to_text (ps : List Par) : List Par := ps.map processOne

/-- Witness for C3 at a concrete document. -/
def parC3 : Par :=
  { numberText := "3.\t".data
    text := "What is this?\r".data
    listType := 3
    listLevelNumber := 1
    leftIndent := 36
    firstLineIndent := -18 }

/-! ## C2 -/

/-- Claim-side predicate: the text begins with one or more digits followed
by '.' or ')'. -/
def beginsWithNumPunct (l : List Char) : Bool :=
  !(l.takeWhile Char.isDigit).isEmpty &&
    (match l.dropWhile Char.isDigit with
     | c :: _ => c == '.' || c == ')'
     | [] => false)

/-- Claim-side predicate: exactly one space character follows the leading
number/punctuation prefix before the rest of the text. -/
def oneSpaceAfterNum (l : List Char) : Bool :=
  !(l.takeWhile Char.isDigit).isEmpty &&
    (match l.dropWhile Char.isDigit with
     | c0 :: c1 :: rest =>
       (c0 == '.' || c0 == ')') && c1 == ' ' && !(rest.head? == some ' ')
     | _ => false)

/-- The core text of a paragraph: its text without the trailing paragraph
mark, the string the regex of converter.py line 114 runs on. -/
def coreOf (l : List Char) : List Char :=
  if l.getLast? = some ('\r') then l.dropLast else l

/-- A matched simple-numbered paragraph whose generated number is followed by
Word's default tab separator. -/
def parC2 : Par :=
  { numberText := "1.\t".data
    text := "Stuff\r".data
    listType := 3
    listLevelNumber := 1
    leftIndent := 36
    firstLineIndent := -18 }

/-- A matched outline-numbered paragraph whose number is directly followed by
the text, the situation the space normalization is written for. -/
def parC2w : Par :=
  { numberText := "2.".data
    text := "Foo\r".data
    listType := 4
    listLevelNumber := 1
    leftIndent := 12
    firstLineIndent := 0 }

/-! ## app.py: job registry, single worker, HTTP endpoints

The job registry `JOBS` is a mapping from job id to a job record; it is only
ever accessed under `JOBS_LOCK` and mutated by one worker thread, so each
job's lifetime is modelled as a sequential trace: creation (the `/start`
handler), then `_run_job` in the worker with the outcome of process_doc
(`Except.ok` final path or `Except.error` message) and the list of values the
progress callback is invoked with. -/

inductive JStatus where
  | queued
  | processing
  | done
  | error
deriving DecidableEq, Inhabited

/-- The job record created by the `/start` and `/start-multi` handlers
(app.py lines 123-134). -/
structure Job where
  status : JStatus
  filename : String
  processing_pct : Int
  final_path : Option String
  error : Option String
  input_path : String
  output_path : String
deriving DecidableEq, Inhabited

def newJob (filename input_path output_path : String) : Job :=
  { status := JStatus.queued
    filename := filename
    processing_pct := 0
    final_path := none
    error := none
    input_path := input_path
    output_path := output_path }

/-- app.py line 59: `max(0, min(100, int(pct)))`. -/
def clampPct (pct : Int) : Int := max 0 (min 100 pct)

/-- The `on_progress` callback of `_run_job` (app.py lines 55-59). -/
def on_progress (j : Job) (pct : Int) : Job :=
  { j with processing_pct := clampPct pct }

/-- `_run_job` (app.py lines 54-79): set status to processing with pct 0, run
process_doc (its outcome is `res`, the progress values it reports are
`calls`), then set status to done with the final path and pct 100, or to
error with the stringified exception.  Returns the final job record together
with the list of status values assigned during the run, in order. -/
def _run_job (j : Job) (res : Except String String) (calls : List Int) :
    Job × List JStatus :=
  let j1 : Job := { j with status := JStatus.processing, processing_pct := 0 }
  let j2 : Job := calls.foldl on_progress j1
  match res with
  | Except.ok finalPath =>
    ({ j2 with
        status := JStatus.done
        final_path := some finalPath
        processing_pct := 100 },
      [JStatus.processing, JStatus.done])
  | Except.error e =>
    ({ j2 with
        status := JStatus.error
        error := some e },
      [JStatus.processing, JStatus.error])

/-- The sequence of values the status field of one job takes over its
lifetime: queued at creation, then the writes of `_run_job` (the single
worker dequeues each job id exactly once). -/
def statusHistory (fn ip op : String) (res : Except String String)
    (calls : List Int) : List JStatus :=
  JStatus.queued :: (_run_job (newJob fn ip op) res calls).2

/-- Claim-side predicate: the status trace is exactly
queued → processing → done or queued → processing → error. -/
def followsLifecycle (h : List JStatus) : Prop :=
  h = [JStatus.queued, JStatus.processing, JStatus.done] ∨
  h = [JStatus.queued, JStatus.processing, JStatus.error]

/-- The sequence of values the processing_pct field of one job takes: 0 at
creation (newJob), 0 at the start of `_run_job`, one clamped write per
progress callback, and 100 on success. -/
def pctWrites (res : Except String String) (calls : List Int) : List Int :=
  0 :: 0 :: (calls.map clampPct ++
    (match res with
     | Except.ok _ => [100]
     | Except.error _ => []))

/-- An HTTP response of the polling endpoints, restricted to what the claims
talk about: the error JSONs with their status codes, the status JSON of
`/progress/<job_id>`, and the file response of `/result/<job_id>`. -/
inductive HttpResp where
  | jsonErr (code : Nat) (msg : String)
  | jsonStatus (status : JStatus) (pct : Int) (filename : String) (err : Option String)
  | fileResp (path : String) (downloadName : String)
deriving DecidableEq

/-- ntpath.basename for a plain file name or slash-separated path: the suffix
after the last '/' or '\'.  (ntpath additionally strips a drive prefix such
as "C:", which is immaterial here because every use site removes ':' from
the result or never passes a drive.) -/
def basenameNT (l : List Char) : List Char :=
  (l.reverse.takeWhile (fun c => !(c == '/' || c == '\\'))).reverse

def basenameStr (s : String) : String := (basenameNT s.data).asString

/-- `/progress/<job_id>` (app.py lines 179-190). -/
def progress_endpoint (jobs : List (String × Job)) (job_id : String) : HttpResp :=
  match jobs.lookup job_id with
  | none => HttpResp.jsonErr 404 "Invalid job id"
  | some j => HttpResp.jsonStatus j.status j.processing_pct j.filename j.error

def emptyPath : String := ""

/-- `/result/<job_id>` (app.py lines 193-204).  Python's falsiness of
`job.get("final_path")` (None or empty string) is modelled with
`Option.getD ""`. -/
def result_endpoint (jobs : List (String × Job)) (job_id : String) : HttpResp :=
  match jobs.lookup job_id with
  | none => HttpResp.jsonErr 404 "Invalid job id"
  | some j =>
    if j.status ≠ JStatus.done ∨ j.final_path.getD emptyPath = "" then
      HttpResp.jsonErr 400 "Not ready"
    else
      HttpResp.fileResp (j.final_path.getD emptyPath)
        (if j.filename = "" then basenameStr (j.final_path.getD emptyPath) else j.filename)

def unknownId : String := "no-such-job"

def donePath : String := "out.docx"

/-! ## sanitize_filename_keep_parens (app.py lines 23-41) -/

/-- The character class removed by the first `re.sub`: Windows-forbidden
punctuation and the control characters \x00-\x1F. -/
def forbiddenChar (c : Char) : Bool :=
  c = '<' || c = '>' || c = ':' || c = '\"' || c = '/' || c = '\\' ||
    c = '|' || c = '?' || c = '*' || c.toNat ≤ 31

/-- app.py line 30: remove the forbidden characters. -/
def stripForbidden (l : List Char) : List Char :=
  l.filter (fun c => !forbiddenChar c)

/-- app.py line 32: remove newlines, carriage returns and tabs (all three are
control characters, so this is a no-op after stripForbidden). -/
def stripNlTab (l : List Char) : List Char :=
  l.filter (fun c => !(c = '\n' || c = '\r' || c = '\t'))

/-- app.py line 34: `base.rstrip(" .")`. -/
def rstripSpaceDot (l : List Char) : List Char :=
  (l.reverse.dropWhile (fun c => c = ' ' || c = '.')).reverse

def docxExt : List Char := ".docx".data

def docxFallback : List Char := "document.docx".data

/-- app.py line 39: `base.lower().endswith(".docx")`. -/
def endsWithDocxCI (l : List Char) : Bool := docxExt.isSuffixOf (toLowerL l)

/-- `os.path.splitext(base)[0]` for a string without path separators (the
preceding steps removed '/', '\\' and ':'): cut at the last dot unless every
character before that dot is itself a dot (leading dots do not start an
extension in Python's splitext). -/
def splitextRoot (l : List Char) : List Char :=
  if ('.') ∈ l then
    let pre := (l.reverse.dropWhile (fun c => c != '.')).reverse
    let root := pre.dropLast
    if root.any (fun c => c != '.') then root else l
  else l

/-- The cleaned base name: basename, character removal, trailing space/dot
strip (app.py lines 28-34). -/
def cleanedBase (name : List Char) : List Char :=
  rstripSpaceDot (stripNlTab (stripForbidden (basenameNT name)))

/-- app.py lines 36-37: fall back to "document.docx" when nothing is left. -/
def baseOrFallback (name : List Char) : List Char :=
  if cleanedBase name = [] then docxFallback else cleanedBase name

/-- sanitize_filename_keep_parens (app.py lines 23-41). -/
def sanitize_filename_keep_parens (name : List Char) : List Char :=
  let b4 := baseOrFallback name
  if endsWithDocxCI b4 then b4 else splitextRoot b4 ++ docxExt

/-! ## process_doc and the synchronous /convert endpoint -/

inductive ProcErr where
  | fileNotFound (msg : String)
  | automation (msg : String)
deriving DecidableEq

def fileNotFoundMsg (input_path : String) : String :=
  "File not found: " ++ input_path

/-- process_doc (converter.py lines 132-176), with the filesystem made
explicit as an association list from existing paths to the documents stored
there: a missing input path raises FileNotFoundError before any document is
opened; otherwise the document is opened, mutated by
convert_questions_to_text, and saved. -/
def process_doc (fs : List (String × List Par)) (input_path : String) :
    Except ProcErr (List Par) :=
  match fs.lookup input_path with
  | none => Except.error (ProcErr.fileNotFound (fileNotFoundMsg input_path))
  | some doc => Except.ok (convert_questions_to_text doc)

/-- Responses of the synchronous `/convert` endpoint that the claims talk
about: the flashed not-found redirect, the flashed generic-failure redirect,
and the converted file. -/
inductive ConvResp where
  | flashNotFound
  | flashFailure
  | fileOk (doc : List Par)
deriving DecidableEq

/-- The `/convert` handler (app.py lines 207-250), from the point where the
upload has been saved to `input_path`: FileNotFoundError flashes the
not-found message, any other exception the generic conversion failure. -/
def convert_endpoint (fs : List (String × List Par)) (input_path : String) :
    ConvResp :=
  match process_doc fs input_path with
  | Except.error (ProcErr.fileNotFound _) => ConvResp.flashNotFound
  | Except.error (ProcErr.automation _) => ConvResp.flashFailure
  | Except.ok d => ConvResp.fileOk d

def missingPath : String := "missing.docx"

def upperName : List Char := "a.DOCX".data

def reportName : List Char := "report.txt".data

/-! ## create_question_paper.py: extract_question (lines 16-57)

The document walk (paragraphs and tables interleaved in body order) yields a
list of text blocks; extract_question scans it sequentially.  `content`
below is that list of texts; `n` is the chosen question number.  The Python
f-string prefixes `f"{n}."` are `Nat.repr n ++ "."`. -/

def pfxNum (n : Nat) : List Char := (Nat.repr n).data ++ [('.')]

def joinNL (l : List (List Char)) : List Char := List.intercalate ([('\n')]) l

/-- The scanning loop of extract_question: strip each text, skip empties,
start (or continue) capturing at a text with the question-number prefix,
stop at the first captured-state text with the next-number prefix, collect
everything in between. -/
def egLoop (p np : List Char) :
    Bool → List (List Char) → List (List Char) → List (List Char)
  | _, acc, [] => acc
  | capturing, acc, t :: ts =>
    let x := pstrip t
    if x = [] then egLoop p np capturing acc ts
    else if p.isPrefixOf x then egLoop p np true (acc ++ [x]) ts
    else if capturing && np.isPrefixOf x then acc
    else if capturing then egLoop p np capturing (acc ++ [x]) ts
    else egLoop p np capturing acc ts

/-- extract_question (create_question_paper.py lines 16-57), on the list of
texts of one document: joins the captured block with newlines, None when
nothing was captured. -/
def extract_question (content : List (List Char)) (n : Nat) :
    Option (List Char) :=
  let qc := egLoop (pfxNum n) (pfxNum (n + 1)) false [] content
  if qc = [] then none else some (joinNL qc)

/-- The non-empty stripped texts of the document, in order. -/
def nonEmptyTexts (content : List (List Char)) : List (List Char) :=
  (content.map pstrip).filter (fun t => !t.isEmpty)

/-- Claim-side description of the captured block: the contiguous run of
non-empty texts that starts at the first text carrying the "N." prefix and
ends just before the first later text carrying the "N+1." prefix (to the end
when there is none); none when no text carries the "N." prefix. -/
def specBlockTexts (p np : List Char) (content : List (List Char)) :
    Option (List (List Char)) :=
  match (nonEmptyTexts content).dropWhile (fun t => !p.isPrefixOf t) with
  | [] => none
  | t :: ts => some (t :: ts.takeWhile (fun u => !np.isPrefixOf u))

/-- The claim's description of extract_question. -/
def spec_extract_question (content : List (List Char)) (n : Nat) :
    Option (List Char) :=
  Option.map joinNL (specBlockTexts (pfxNum n) (pfxNum (n + 1)) content)

/-! ## C1 -/

/-- Shared characterization of is_question_paragraph, proved once and reused
by the claim theorems below. -/
lemma is_question_paragraph_eq (p : Par) :
    is_question_paragraph p = true ↔
      ((p.listType = wdListOutlineNumbering ∨ p.listType = wdListSimpleNumbering ∨
          p.listType = wdListListNumOnly) ∧
        p.listLevelNumber = 1 ∧
        ciStartsWith ("Answer".data) (pstrip p.text) = false ∧
        ciStartsWith ("Explanation".data) (pstrip p.text) = false) := by
  have hA : toLowerL ("Answer".data) = answerLit := by decide
  have hE : toLowerL ("Explanation".data) = explanationLit := by decide
  unfold is_question_paragraph ciStartsWith lowerStartsWith
  rw [hA, hE]
  cases hta : answerLit.isPrefixOf (toLowerL (pstrip p.text)) <;>
    cases hte : explanationLit.isPrefixOf (toLowerL (pstrip p.text)) <;>
      simp [hta, hte, wdListNoNumbering, wdListOutlineNumbering,
        wdListSimpleNumbering, wdListListNumOnly]
  omega

/-- C1: is_question_paragraph accepts a paragraph exactly when its list type
is outline, simple, or listNum numbering, its list level number is 1, and its
stripped text does not start with "Answer" or "Explanation" (the prefix test
is case-insensitive, exactly as the code lowercases the text before
comparing). -/
theorem C1_is_question_paragraph_iff (p : Par) :
    is_question_paragraph p = true ↔
      ((p.listType = wdListOutlineNumbering ∨ p.listType = wdListSimpleNumbering ∨
          p.listType = wdListListNumOnly) ∧
        p.listLevelNumber = 1 ∧
        ciStartsWith ("Answer".data) (pstrip p.text) = false ∧
        ciStartsWith ("Explanation".data) (pstrip p.text) = false) :=
  is_question_paragraph_eq p

/-! ## C3 -/

/-- C3: after convert_questions_to_text, every paragraph matched by the
question heuristic has left indent and first-line indent both zero. -/
theorem C3_indents_zero (ps : List Par) (i : Nat) (p : Par)
    (h : ps[i]? = some p) (hq : is_question_paragraph p = true) :
    ∃ q, (convert_questions_to_text ps)[i]? = some q ∧
      q.leftIndent = 0 ∧ q.firstLineIndent = 0 := by
  refine ⟨processOne p, ?_, ?_, ?_⟩
  · simp [convert_questions_to_text, List.getElem?_map, h]
  · simp [processOne, hq, processTarget]
  · simp [processOne, hq, processTarget]

theorem C3_indents_zero_witness :
    ∃ q, (convert_questions_to_text [parC3])[0]? = some q ∧
      q.leftIndent = 0 ∧ q.firstLineIndent = 0 :=
  C3_indents_zero [parC3] 0 parC3 rfl (by decide)

lemma takeWhile_append_cons {α : Type} (q : α → Bool) (xs : List α) (y : α)
    (t : List α) (hx : ∀ c ∈ xs, q c = true) (hy : q y = false) :
    (xs ++ y :: t).takeWhile q = xs ∧ (xs ++ y :: t).dropWhile q = y :: t := by
  induction xs with
  | nil => simp [List.takeWhile_cons, List.dropWhile_cons, hy]
  | cons a as ih =>
    have ha : q a = true := hx a (by simp)
    have ih2 := ih (fun c hc => hx c (by simp [hc]))
    simp [List.takeWhile_cons, List.dropWhile_cons, ha, ih2.1, ih2.2]

lemma head?_append_left {α : Type} (a b : List α) (h : a ≠ []) :
    (a ++ b).head? = a.head? := by
  cases a with
  | nil => exact absurd rfl h
  | cons x xs => rfl

lemma getLast?_append_right {α : Type} (a b : List α) (h : b ≠ []) :
    (a ++ b).getLast? = b.getLast? := by
  rw [← List.head?_reverse, ← List.head?_reverse, List.reverse_append]
  exact head?_append_left _ _ (by simpa using h)

lemma dotPlusEnd_of_no_nl (l : List Char) (h0 : l ≠ []) (hnl : ('\n') ∉ l) :
    dotPlusEnd l = some l := by
  unfold dotPlusEnd
  rw [if_neg h0, if_pos hnl]

lemma isDigit_punct_false (c0 : Char) (hc0 : c0 = '.' ∨ c0 = ')') :
    Char.isDigit c0 = false := by
  rcases hc0 with h | h <;> subst h <;> decide

lemma reMatch_noSpace (ds : List Char) (c0 c : Char) (t : List Char)
    (hds : ds ≠ []) (hdig : ∀ x ∈ ds, Char.isDigit x = true)
    (hc0 : c0 = '.' ∨ c0 = ')') (hc : isPySpace c = false)
    (hnl : ('\n') ∉ c :: t) :
    reMatch (ds ++ c0 :: c :: t) = some (ds ++ [c0], c :: t) := by
  obtain ⟨htw, hdw⟩ :=
    takeWhile_append_cons Char.isDigit ds c0 (c :: t) hdig (isDigit_punct_false c0 hc0)
  have hdp : dotPlusEnd (c :: t) = some (c :: t) :=
    dotPlusEnd_of_no_nl _ (by simp) hnl
  simp [reMatch, htw, hdw, hds, hc0, hc, hdp]

lemma reMatch_oneSpaceAlready (ds : List Char) (c0 c : Char) (t : List Char)
    (hds : ds ≠ []) (hdig : ∀ x ∈ ds, Char.isDigit x = true)
    (hc0 : c0 = '.' ∨ c0 = ')')
    (hnl : ('\n') ∉ c :: t) :
    reMatch (ds ++ c0 :: (' ') :: c :: t) = some (ds ++ [c0, ' '], c :: t) := by
  obtain ⟨htw, hdw⟩ :=
    takeWhile_append_cons Char.isDigit ds c0 ((' ') :: c :: t) hdig
      (isDigit_punct_false c0 hc0)
  have hdp : dotPlusEnd (c :: t) = some (c :: t) :=
    dotPlusEnd_of_no_nl _ (by simp) hnl
  have hsp : isPySpace (' ') = true := by decide
  simp [reMatch, htw, hdw, hds, hc0, hsp, hdp]

lemma fixSpace_insert (ds : List Char) (c0 c : Char) (t : List Char)
    (hds : ds ≠ []) (hdig : ∀ x ∈ ds, Char.isDigit x = true)
    (hc0 : c0 = '.' ∨ c0 = ')') (hc : isPySpace c = false)
    (hnl : ('\n') ∉ c :: t) :
    fixSpace (ds ++ c0 :: c :: t) = ds ++ c0 :: (' ') :: c :: t := by
  have hm := reMatch_noSpace ds c0 c t hds hdig hc0 hc hnl
  have hc0s : c0 ≠ ' ' := by rcases hc0 with h | h <;> subst h <;> decide
  simp [fixSpace, hm, hc0s]

lemma fixSpace_keep (ds : List Char) (c0 c : Char) (t : List Char)
    (hds : ds ≠ []) (hdig : ∀ x ∈ ds, Char.isDigit x = true)
    (hc0 : c0 = '.' ∨ c0 = ')')
    (hnl : ('\n') ∉ c :: t) :
    fixSpace (ds ++ c0 :: (' ') :: c :: t) = ds ++ c0 :: (' ') :: c :: t := by
  have hm := reMatch_oneSpaceAlready ds c0 c t hds hdig hc0 hnl
  have hsplit : ds ++ [c0, ' '] = (ds ++ [c0]) ++ [(' ')] := by simp
  have hlast : (ds ++ [c0, ' ']).getLast? = some (' ') := by
    rw [hsplit]; exact List.getLast?_concat _
  simp [fixSpace, hm, hlast]

lemma ne_space_of_not_pyspace (c : Char) (h : isPySpace c = false) : c ≠ ' ' := by
  intro h2
  subst h2
  simp [isPySpace] at h

lemma oneSpaceAfterNum_shape (ds : List Char) (c0 c : Char) (t : List Char)
    (hds : ds ≠ []) (hdig : ∀ x ∈ ds, Char.isDigit x = true)
    (hc0 : c0 = '.' ∨ c0 = ')') (hcs : c ≠ ' ') :
    oneSpaceAfterNum (ds ++ c0 :: (' ') :: c :: t) = true := by
  obtain ⟨htw, hdw⟩ :=
    takeWhile_append_cons Char.isDigit ds c0 ((' ') :: c :: t) hdig
      (isDigit_punct_false c0 hc0)
  simp only [oneSpaceAfterNum, htw, hdw]
  rcases hc0 with h | h <;> subst h <;> simp [hds, hcs]

lemma coreOf_concat_cr (x : List Char) : coreOf (x ++ [('\r')]) = x := by
  simp [coreOf, List.getLast?_concat]

lemma coreOf_of_ne (x : List Char) (h : x.getLast? ≠ some ('\r')) : coreOf x = x := by
  simp [coreOf, h]

/-- Under the hypotheses of the amended claim, the paragraph-text rewrite
yields a text whose core carries exactly one space after the number. -/
lemma fixText_oneSpace (txt ds : List Char) (c0 : Char) (tail : List Char)
    (hcore : coreOf txt = ds ++ c0 :: tail)
    (hds : ds ≠ []) (hdig : ∀ x ∈ ds, Char.isDigit x = true)
    (hc0 : c0 = '.' ∨ c0 = ')')
    (hnl : ('\n') ∉ ds ++ c0 :: tail)
    (htail : (∃ c t, tail = c :: t ∧ isPySpace c = false) ∨
      (∃ c t, tail = (' ') :: c :: t ∧ isPySpace c = false)) :
    oneSpaceAfterNum (coreOf (fixText txt)) = true := by
  have hfix : ∀ hyp : coreOf txt = ds ++ c0 :: tail,
      ∃ c t, fixSpace (ds ++ c0 :: tail) = ds ++ c0 :: (' ') :: c :: t ∧
        isPySpace c = false ∧
        (tail = c :: t ∨ tail = (' ') :: c :: t) := by
    intro _
    rcases htail with ⟨c, t, hteq, hcps⟩ | ⟨c, t, hteq, hcps⟩
    · subst hteq
      have hnl2 : ('\n') ∉ c :: t := fun hm => hnl (by simp [hm])
      exact ⟨c, t, fixSpace_insert ds c0 c t hds hdig hc0 hcps hnl2, hcps, Or.inl rfl⟩
    · subst hteq
      have hnl2 : ('\n') ∉ c :: t := fun hm => hnl (by simp [hm])
      exact ⟨c, t, fixSpace_keep ds c0 c t hds hdig hc0 hnl2, hcps, Or.inr rfl⟩
  obtain ⟨c, t, hfs, hcps, hshape⟩ := hfix hcore
  by_cases hcr : txt.getLast? = some ('\r')
  · have hd : txt.dropLast = ds ++ c0 :: tail := by
      simpa [coreOf, hcr] using hcore
    have : fixText txt = fixSpace (ds ++ c0 :: tail) ++ [('\r')] := by
      simp [fixText, hcr, hd]
    rw [this, coreOf_concat_cr, hfs]
    exact oneSpaceAfterNum_shape ds c0 c t hds hdig hc0 (ne_space_of_not_pyspace c hcps)
  · have hid : coreOf txt = txt := by simp [coreOf, hcr]
    have htxt : txt = ds ++ c0 :: tail := by rw [← hid, hcore]
    have hft : fixText txt = fixSpace (ds ++ c0 :: tail) := by
      unfold fixText
      rw [if_neg hcr, htxt]
    have hres : (fixSpace (ds ++ c0 :: tail)).getLast? ≠ some ('\r') := by
      rw [hfs]
      have h1 : ds ++ c0 :: (' ') :: c :: t = (ds ++ [c0, ' ']) ++ (c :: t) := by simp
      rw [h1, getLast?_append_right _ _ (by simp)]
      rcases hshape with hsh | hsh
      · have h2 : txt = (ds ++ [c0]) ++ (c :: t) := by rw [htxt, hsh]; simp
        rw [h2, getLast?_append_right _ _ (by simp)] at hcr
        exact hcr
      · have h2 : txt = (ds ++ [c0, ' ']) ++ (c :: t) := by rw [htxt, hsh]; simp
        rw [h2, getLast?_append_right _ _ (by simp)] at hcr
        exact hcr
    rw [hft, coreOf_of_ne _ hres, hfs]
    exact oneSpaceAfterNum_shape ds c0 c t hds hdig hc0 (ne_space_of_not_pyspace c hcps)

/-- C2 counterexample: parC2 is matched and its converted text begins with
digits followed by '.', yet after convert_questions_to_text the text is
"1.\t Stuff" — a tab, not exactly one space, follows the number prefix: the
code inserts a space after the tab instead of normalizing it. -/
theorem C2_counterexample :
    is_question_paragraph parC2 = true ∧
    beginsWithNumPunct (coreOf ((convertNumbersToText parC2).text)) = true ∧
    (convert_questions_to_text [parC2]).map (fun q => oneSpaceAfterNum (coreOf q.text))
      = [false] := by decide

/-- C2 (amended): for every matched paragraph processed by
convert_questions_to_text whose converted text begins with digits followed by
'.' or ')' and then either a non-whitespace character or a single space
followed by a non-whitespace character, and whose text contains no newline,
after processing exactly one space follows the number/punctuation prefix
before the rest of the text. -/
theorem C2_one_space_after_number (ps : List Par) (i : Nat) (p : Par)
    (ds : List Char) (c0 : Char) (tail : List Char)
    (h : ps[i]? = some p) (hq : is_question_paragraph p = true)
    (hcore : coreOf (p.numberText ++ p.text) = ds ++ c0 :: tail)
    (hds : ds ≠ []) (hdig : ∀ x ∈ ds, Char.isDigit x = true)
    (hc0 : c0 = '.' ∨ c0 = ')')
    (hnl : ('\n') ∉ ds ++ c0 :: tail)
    (htail : (∃ c t, tail = c :: t ∧ isPySpace c = false) ∨
      (∃ c t, tail = (' ') :: c :: t ∧ isPySpace c = false)) :
    ∃ q, (convert_questions_to_text ps)[i]? = some q ∧
      oneSpaceAfterNum (coreOf q.text) = true := by
  refine ⟨processOne p, by simp [convert_questions_to_text, List.getElem?_map, h], ?_⟩
  have hlt : p.listType ≠ wdListNoNumbering := by
    rcases (is_question_paragraph_eq p).1 hq with ⟨hty, -, -⟩
    rcases hty with h2 | h2 | h2 <;>
      simp [h2, wdListOutlineNumbering, wdListSimpleNumbering, wdListListNumOnly,
        wdListNoNumbering]
  have hpo : processOne p = processTarget p := by simp [processOne, hq]
  have htext : (processOne p).text = fixText (p.numberText ++ p.text) := by
    rw [hpo]
    simp [processTarget, convertNumbersToText, hlt]
  rw [htext]
  exact fixText_oneSpace _ ds c0 tail hcore hds hdig hc0 hnl htail

theorem C2_one_space_after_number_witness :
    ∃ q, (convert_questions_to_text [parC2w])[0]? = some q ∧
      oneSpaceAfterNum (coreOf q.text) = true :=
  C2_one_space_after_number [parC2w] 0 parC2w ("2".data) '.' ("Foo".data)
    rfl (by decide) (by decide) (by decide) (by decide) (Or.inl rfl)
    (by decide) (Or.inl ⟨'F', ("oo".data), by decide, by decide⟩)

/-! ## C4 -/

/-- C4: every job's status follows exactly
queued → processing → (done | error), each transition occurring once. -/
theorem C4_status_lifecycle (fn ip op : String) (res : Except String String)
    (calls : List Int) : followsLifecycle (statusHistory fn ip op res calls) := by
  cases res <;> simp [statusHistory, _run_job, followsLifecycle]

/-! ## C5 -/

/-- C5: for a job id absent from the registry, both the progress-poll
endpoint and the result-download endpoint answer 404 with an error body,
never a status and never a file. -/
theorem C5_unknown_job_id (jobs : List (String × Job)) (job_id : String)
    (h : jobs.lookup job_id = none) :
    progress_endpoint jobs job_id = HttpResp.jsonErr 404 "Invalid job id" ∧
    result_endpoint jobs job_id = HttpResp.jsonErr 404 "Invalid job id" := by
  constructor <;> simp [progress_endpoint, result_endpoint, h]

theorem C5_unknown_job_id_witness :
    progress_endpoint [] unknownId = HttpResp.jsonErr 404 "Invalid job id" ∧
    result_endpoint [] unknownId = HttpResp.jsonErr 404 "Invalid job id" :=
  C5_unknown_job_id [] unknownId rfl

/-! ## C6 -/

/-- C6: every value the progress percentage field ever takes is an integer
between 0 and 100, whatever integers the progress callback is invoked
with. -/
theorem C6_pct_in_range (res : Except String String) (calls : List Int)
    (v : Int) (hv : v ∈ pctWrites res calls) : 0 ≤ v ∧ v ≤ 100 := by
  have hb : ∀ a : Int, 0 ≤ clampPct a ∧ clampPct a ≤ 100 := by
    intro a; unfold clampPct; omega
  have hmem : ∀ x ∈ calls.map clampPct, 0 ≤ x ∧ x ≤ 100 := by
    intro x hx
    rcases List.mem_map.1 hx with ⟨a, -, rfl⟩
    exact hb a
  cases res with
  | ok fp =>
    simp only [pctWrites, List.mem_cons, List.mem_append, List.mem_singleton] at hv
    rcases hv with rfl | rfl | hv | rfl | hv
    · omega
    · omega
    · exact hmem v hv
    · omega
    · exact absurd hv (List.not_mem_nil v)
  | error e =>
    simp only [pctWrites, List.mem_cons, List.mem_append] at hv
    rcases hv with rfl | rfl | hv | hv
    · omega
    · omega
    · exact hmem v hv
    · exact absurd hv (List.not_mem_nil v)

theorem C6_pct_in_range_witness : (0 : Int) ≤ 100 ∧ (100 : Int) ≤ 100 :=
  C6_pct_in_range (Except.ok donePath) [150, -3] 100 (by decide)

/-! ## C8 -/

/-- C8: for an input path that does not exist, process_doc returns the
FileNotFoundError before any document processing, and the synchronous
conversion endpoint reports the not-found condition. -/
theorem C8_missing_input (fs : List (String × List Par)) (input_path : String)
    (h : fs.lookup input_path = none) :
    process_doc fs input_path
        = Except.error (ProcErr.fileNotFound (fileNotFoundMsg input_path)) ∧
      convert_endpoint fs input_path = ConvResp.flashNotFound := by
  constructor <;> simp [process_doc, convert_endpoint, h]

theorem C8_missing_input_witness :
    process_doc [] missingPath
        = Except.error (ProcErr.fileNotFound (fileNotFoundMsg missingPath)) ∧
      convert_endpoint [] missingPath = ConvResp.flashNotFound :=
  C8_missing_input [] missingPath rfl

/-! ## C7 and C10 -/

lemma mem_rstripSpaceDot {c : Char} {l : List Char}
    (h : c ∈ rstripSpaceDot l) : c ∈ l := by
  unfold rstripSpaceDot at h
  rw [List.mem_reverse] at h
  exact List.mem_reverse.1 ((List.dropWhile_sublist _).subset h)

lemma mem_splitextRoot {c : Char} {l : List Char}
    (h : c ∈ splitextRoot l) : c ∈ l := by
  unfold splitextRoot at h
  by_cases hd : ('.') ∈ l
  · rw [if_pos hd] at h
    set pre := (l.reverse.dropWhile (fun c => c != '.')).reverse with hpre
    by_cases ha : pre.dropLast.any (fun c => c != '.') = true
    · rw [if_pos ha] at h
      have h1 : c ∈ pre := (List.dropLast_sublist pre).subset h
      rw [hpre, List.mem_reverse] at h1
      exact List.mem_reverse.1 ((List.dropWhile_sublist _).subset h1)
    · rw [if_neg ha] at h
      exact h
  · rw [if_neg hd] at h
    exact h

lemma not_forbidden_of_mem_filter {c : Char} {l : List Char}
    (h : c ∈ stripForbidden l) : forbiddenChar c = false := by
  have := (List.mem_filter.1 h).2
  simpa using this

lemma mem_stripNlTab {c : Char} {l : List Char} (h : c ∈ stripNlTab l) : c ∈ l :=
  (List.mem_filter.1 h).1

lemma cleanedBase_not_forbidden {c : Char} {name : List Char}
    (h : c ∈ cleanedBase name) : forbiddenChar c = false :=
  not_forbidden_of_mem_filter (mem_stripNlTab (mem_rstripSpaceDot h))

lemma docxFallback_not_forbidden : ∀ c ∈ docxFallback, forbiddenChar c = false := by
  decide

lemma docxExt_not_forbidden : ∀ c ∈ docxExt, forbiddenChar c = false := by
  decide

lemma baseOrFallback_not_forbidden {c : Char} {name : List Char}
    (h : c ∈ baseOrFallback name) : forbiddenChar c = false := by
  unfold baseOrFallback at h
  by_cases he : cleanedBase name = []
  · rw [if_pos he] at h
    exact docxFallback_not_forbidden c h
  · rw [if_neg he] at h
    exact cleanedBase_not_forbidden h

lemma sanitize_not_forbidden (name : List Char) :
    ∀ c ∈ sanitize_filename_keep_parens name, forbiddenChar c = false := by
  intro c hc
  unfold sanitize_filename_keep_parens at hc
  by_cases he : endsWithDocxCI (baseOrFallback name) = true
  · rw [if_pos he] at hc
    exact baseOrFallback_not_forbidden hc
  · rw [if_neg he] at hc
    rcases List.mem_append.1 hc with h | h
    · exact baseOrFallback_not_forbidden (mem_splitextRoot h)
    · exact docxExt_not_forbidden c h

lemma stripNlTab_noop (name : List Char) :
    stripNlTab (stripForbidden name) = name.filter (fun c => !forbiddenChar c) := by
  have h : ∀ a ∈ stripForbidden name, (!(a = '\n' || a = '\r' || a = '\t')) = true := by
    intro a ha
    have hf : forbiddenChar a = false := not_forbidden_of_mem_filter ha
    simp only [Bool.not_eq_true', Bool.or_eq_false_iff, decide_eq_false_iff_not]
    refine ⟨⟨fun h1 => ?_, fun h1 => ?_⟩, fun h1 => ?_⟩ <;>
      subst h1 <;> exact absurd hf (by decide)
  calc stripNlTab (stripForbidden name)
      = stripForbidden name := List.filter_eq_self.2 h
    _ = name.filter (fun c => !forbiddenChar c) := rfl

lemma endsWithDocxCI_append (x : List Char) : endsWithDocxCI (x ++ docxExt) = true := by
  unfold endsWithDocxCI toLowerL
  rw [List.map_append]
  have h : docxExt.map Char.toLower = docxExt := by decide
  rw [h, List.isSuffixOf_iff_suffix]
  exact List.suffix_append _ _

lemma sanitize_endsDocx (name : List Char) :
    endsWithDocxCI (sanitize_filename_keep_parens name) = true := by
  unfold sanitize_filename_keep_parens
  by_cases he : endsWithDocxCI (baseOrFallback name) = true
  · rw [if_pos he]
    exact he
  · rw [if_neg he]
    exact endsWithDocxCI_append _

/-- C7: sanitize_filename_keep_parens removes every disallowed character
(< > : " / \ | ? * and the control characters, newlines and tabs included),
its character-removal stage keeps exactly the allowed characters and in
particular the parentheses, and the result always carries the ".docx"
extension up to letter case. -/
theorem C7_sanitize_filename (name : List Char) :
    (sanitize_filename_keep_parens name).all (fun c => !forbiddenChar c) = true ∧
    stripNlTab (stripForbidden name) = name.filter (fun c => !forbiddenChar c) ∧
    forbiddenChar '(' = false ∧ forbiddenChar ')' = false ∧
    endsWithDocxCI (sanitize_filename_keep_parens name) = true := by
  refine ⟨?_, stripNlTab_noop name, by decide, by decide, sanitize_endsDocx name⟩
  rw [List.all_eq_true]
  intro c hc
  simpa using sanitize_not_forbidden name c hc

/-- C10 counterexample: on "a.DOCX" the sanitizer keeps the name unchanged
(its lowercasing test accepts the uppercase extension), so the result does
not end with the literal ".docx". -/
theorem C10_counterexample :
    sanitize_filename_keep_parens upperName = upperName ∧
    docxExt.isSuffixOf (sanitize_filename_keep_parens upperName) = false := by
  decide

lemma baseOrFallback_ne_nil (name : List Char) : baseOrFallback name ≠ [] := by
  unfold baseOrFallback
  by_cases he : cleanedBase name = []
  · rw [if_pos he]
    decide
  · rw [if_neg he]
    exact he

/-- C10 (amended): sanitize_filename_keep_parens always returns a non-empty
name that ends with ".docx" up to ASCII letter case: when stripping leaves
nothing the fixed fallback "document.docx" is returned, and a name whose
extension is not ".docx" (in any case) has that extension replaced by
".docx". -/
theorem C10_sanitize_nonempty_docx (name : List Char) :
    sanitize_filename_keep_parens name ≠ [] ∧
    endsWithDocxCI (sanitize_filename_keep_parens name) = true ∧
    (cleanedBase name = [] → sanitize_filename_keep_parens name = docxFallback) ∧
    (endsWithDocxCI (baseOrFallback name) = false →
      sanitize_filename_keep_parens name
        = splitextRoot (baseOrFallback name) ++ docxExt) := by
  refine ⟨?_, sanitize_endsDocx name, ?_, ?_⟩
  · unfold sanitize_filename_keep_parens
    by_cases he : endsWithDocxCI (baseOrFallback name) = true
    · rw [if_pos he]
      exact baseOrFallback_ne_nil name
    · rw [if_neg he]
      intro hnil
      have := (List.append_eq_nil.1 hnil).2
      exact absurd this (by decide)
  · intro hempty
    have hb : baseOrFallback name = docxFallback := by
      unfold baseOrFallback
      rw [if_pos hempty]
    have hd : endsWithDocxCI docxFallback = true := by decide
    unfold sanitize_filename_keep_parens
    rw [hb, if_pos hd]
  · intro hfalse
    unfold sanitize_filename_keep_parens
    rw [if_neg (by simp [hfalse])]

theorem C10_sanitize_nonempty_docx_witness :
    sanitize_filename_keep_parens reportName ≠ [] ∧
    endsWithDocxCI (sanitize_filename_keep_parens reportName) = true ∧
    (cleanedBase reportName = [] → sanitize_filename_keep_parens reportName = docxFallback) ∧
    (endsWithDocxCI (baseOrFallback reportName) = false →
      sanitize_filename_keep_parens reportName
        = splitextRoot (baseOrFallback reportName) ++ docxExt) :=
  C10_sanitize_nonempty_docx reportName

/-! ## C9 lemmas: decimal representations of consecutive numbers are
prefix-incompatible, and the scan equals the claim's block description. -/

lemma toDigitsCore_zero (n : Nat) (acc : List Char) :
    Nat.toDigitsCore 10 0 n acc = acc := rfl

lemma toDigitsCore_succ (f n : Nat) (acc : List Char) :
    Nat.toDigitsCore 10 (f + 1) n acc =
      if n / 10 = 0 then Nat.digitChar (n % 10) :: acc
      else Nat.toDigitsCore 10 f (n / 10) (Nat.digitChar (n % 10) :: acc) := rfl

lemma toDigitsCore_chars : ∀ (f n : Nat) (acc : List Char),
    ∀ c ∈ Nat.toDigitsCore 10 f n acc,
      c ∈ acc ∨ ∃ m, m < 10 ∧ c = Nat.digitChar m := by
  intro f
  induction f with
  | zero =>
    intro n acc c hc
    rw [toDigitsCore_zero] at hc
    exact Or.inl hc
  | succ f ih =>
    intro n acc c hc
    rw [toDigitsCore_succ] at hc
    by_cases hz : n / 10 = 0
    · rw [if_pos hz] at hc
      rcases List.mem_cons.1 hc with rfl | hmem
      · exact Or.inr ⟨n % 10, Nat.mod_lt _ (by norm_num), rfl⟩
      · exact Or.inl hmem
    · rw [if_neg hz] at hc
      rcases ih (n / 10) (Nat.digitChar (n % 10) :: acc) c hc with hmem | hdig
      · rcases List.mem_cons.1 hmem with rfl | hmem2
        · exact Or.inr ⟨n % 10, Nat.mod_lt _ (by norm_num), rfl⟩
        · exact Or.inl hmem2
      · exact Or.inr hdig

lemma toDigitsCore_succ_getLast : ∀ (f n : Nat) (acc : List Char),
    ∃ l, Nat.toDigitsCore 10 (f + 1) n acc = l ++ acc ∧
      l.getLast? = some (Nat.digitChar (n % 10)) := by
  intro f
  induction f with
  | zero =>
    intro n acc
    rw [toDigitsCore_succ]
    by_cases hz : n / 10 = 0
    · rw [if_pos hz]
      exact ⟨[Nat.digitChar (n % 10)], rfl, rfl⟩
    · rw [if_neg hz, toDigitsCore_zero]
      exact ⟨[Nat.digitChar (n % 10)], rfl, rfl⟩
  | succ f ih =>
    intro n acc
    rw [toDigitsCore_succ]
    by_cases hz : n / 10 = 0
    · rw [if_pos hz]
      exact ⟨[Nat.digitChar (n % 10)], rfl, rfl⟩
    · rw [if_neg hz]
      obtain ⟨l2, hl2, -⟩ := ih (n / 10) (Nat.digitChar (n % 10) :: acc)
      refine ⟨l2 ++ [Nat.digitChar (n % 10)], ?_, List.getLast?_concat _⟩
      rw [hl2]
      simp

lemma repr_data_eq (n : Nat) :
    (Nat.repr n).data = Nat.toDigitsCore 10 (n + 1) n [] := rfl

lemma repr_getLast (n : Nat) :
    (Nat.repr n).data.getLast? = some (Nat.digitChar (n % 10)) := by
  obtain ⟨l, hl, hlast⟩ := toDigitsCore_succ_getLast n n []
  rw [repr_data_eq, hl]
  simpa using hlast

lemma repr_digits (n : Nat) : ∀ c ∈ (Nat.repr n).data, c.isDigit = true := by
  intro c hc
  rw [repr_data_eq] at hc
  rcases toDigitsCore_chars (n + 1) n [] c hc with h | ⟨m, hm, rfl⟩
  · exact absurd h (List.not_mem_nil c)
  · have hd : ∀ a ∈ Finset.range 10, (Nat.digitChar a).isDigit = true := by decide
    exact hd m (Finset.mem_range.2 hm)

lemma repr_no_dot (n : Nat) : ('.') ∉ (Nat.repr n).data := by
  intro h
  have := repr_digits n _ h
  exact absurd this (by decide)

lemma concat_prefix_eq (a b : List Char) (d : Char)
    (hb : d ∉ b) (h : a ++ [d] <+: b ++ [d]) : a = b := by
  rcases Nat.lt_or_ge a.length b.length with hlt | hge
  · exfalso
    have h1 : a ++ [d] = (b ++ [d]).take ((a ++ [d]).length) :=
      List.prefix_iff_eq_take.1 h
    have hlen : (a ++ [d]).length = a.length + 1 := by simp
    have h2 : (b ++ [d]).take (a.length + 1) = b.take (a.length + 1) :=
      List.take_append_of_le_length (by omega)
    have hd : d ∈ b := by
      have hmem : d ∈ b.take (a.length + 1) := by
        rw [← h2, ← hlen, ← h1]
        simp
      exact List.take_subset _ _ hmem
    exact hb hd
  · have hle := h.length_le
    have hlen : a.length = b.length := by
      simp only [List.length_append, List.length_cons, List.length_nil] at hle
      omega
    have heq : a ++ [d] = b ++ [d] := by
      have h1 := List.prefix_iff_eq_take.1 h
      rw [List.take_of_length_le (by simp [hlen])] at h1
      exact h1
    exact (List.append_inj heq (by simp [hlen])).1

lemma pfxNum_mod (a b : Nat)
    (h : (pfxNum a).isPrefixOf (pfxNum b) = true) : a % 10 = b % 10 := by
  have h2 : (Nat.repr a).data ++ [('.')] <+: (Nat.repr b).data ++ [('.')] := by
    have h3 := ( List.isPrefixOf_iff_prefix).1 h
    simpa [pfxNum] using h3
  have heq := concat_prefix_eq _ _ _ (repr_no_dot b) h2
  have h4 : (Nat.repr a).data.getLast? = (Nat.repr b).data.getLast? := by rw [heq]
  rw [repr_getLast, repr_getLast] at h4
  have h5 : Nat.digitChar (a % 10) = Nat.digitChar (b % 10) := by
    simpa using h4
  have hd : ∀ x ∈ Finset.range 10, ∀ y ∈ Finset.range 10,
      Nat.digitChar x = Nat.digitChar y → x = y := by decide
  exact hd (a % 10) (Finset.mem_range.2 (Nat.mod_lt _ (by norm_num)))
    (b % 10) (Finset.mem_range.2 (Nat.mod_lt _ (by norm_num))) h5

lemma pfxNum_excl (n : Nat) (x : List Char)
    (h1 : (pfxNum n).isPrefixOf x = true) :
    (pfxNum (n + 1)).isPrefixOf x = false := by
  by_contra hc
  have h2 : (pfxNum (n + 1)).isPrefixOf x = true := by
    simpa using hc
  have p1 := ( List.isPrefixOf_iff_prefix).1 h1
  have p2 := ( List.isPrefixOf_iff_prefix).1 h2
  have hmod : n % 10 = (n + 1) % 10 ∨ (n + 1) % 10 = n % 10 := by
    rcases List.prefix_or_prefix_of_prefix p1 p2 with hp | hp
    · exact Or.inl (pfxNum_mod n (n + 1) (( List.isPrefixOf_iff_prefix).2 hp))
    · exact Or.inr (pfxNum_mod (n + 1) n (( List.isPrefixOf_iff_prefix).2 hp))
  rcases hmod with hm | hm <;> omega

lemma nonEmptyTexts_cons (t : List Char) (ts : List (List Char)) :
    nonEmptyTexts (t :: ts) =
      if pstrip t = [] then nonEmptyTexts ts
      else pstrip t :: nonEmptyTexts ts := by
  by_cases h : pstrip t = [] <;> simp [nonEmptyTexts, h]

lemma egLoop_capturing (p np : List Char)
    (hx : ∀ x : List Char, p.isPrefixOf x = true → np.isPrefixOf x = false) :
    ∀ (ts acc : List (List Char)),
      egLoop p np true acc ts =
        acc ++ (nonEmptyTexts ts).takeWhile (fun u => !np.isPrefixOf u) := by
  intro ts
  induction ts with
  | nil => intro acc; simp [egLoop, nonEmptyTexts]
  | cons t ts ih =>
    intro acc
    by_cases h0 : pstrip t = []
    · simp [egLoop, h0, nonEmptyTexts_cons, ih]
    · by_cases hp : p.isPrefixOf (pstrip t) = true
      · have hnp := hx _ hp
        simp [egLoop, h0, hp, hnp, nonEmptyTexts_cons, ih, List.takeWhile_cons]
      · by_cases hnp : np.isPrefixOf (pstrip t) = true
        · simp [egLoop, h0, hp, hnp, nonEmptyTexts_cons, List.takeWhile_cons]
        · simp [egLoop, h0, hp, hnp, nonEmptyTexts_cons, ih, List.takeWhile_cons]

lemma egLoop_scanning (p np : List Char)
    (hx : ∀ x : List Char, p.isPrefixOf x = true → np.isPrefixOf x = false) :
    ∀ ts : List (List Char),
      egLoop p np false [] ts =
        (match specBlockTexts p np ts with
         | none => []
         | some b => b) := by
  intro ts
  induction ts with
  | nil => simp [egLoop, specBlockTexts, nonEmptyTexts]
  | cons t ts ih =>
    by_cases h0 : pstrip t = []
    · have hs : specBlockTexts p np (t :: ts) = specBlockTexts p np ts := by
        unfold specBlockTexts
        rw [nonEmptyTexts_cons, if_pos h0]
      simp [egLoop, h0, hs, ih]
    · by_cases hp : p.isPrefixOf (pstrip t) = true
      · have hcap := egLoop_capturing p np hx ts [pstrip t]
        have hs : specBlockTexts p np (t :: ts) =
            some (pstrip t ::
              (nonEmptyTexts ts).takeWhile (fun u => !np.isPrefixOf u)) := by
          unfold specBlockTexts
          rw [nonEmptyTexts_cons, if_neg h0, List.dropWhile_cons]
          simp [hp]
        simp [egLoop, h0, hp, hcap, hs]
      · have hs : specBlockTexts p np (t :: ts) = specBlockTexts p np ts := by
          unfold specBlockTexts
          rw [nonEmptyTexts_cons, if_neg h0, List.dropWhile_cons]
          simp [hp]
        simp [egLoop, h0, hp, hs, ih]

lemma specBlockTexts_ne_nil {p np : List Char} {content : List (List Char)}
    {b : List (List Char)} (h : specBlockTexts p np content = some b) :
    b ≠ [] := by
  unfold specBlockTexts at h
  cases hdw : (nonEmptyTexts content).dropWhile (fun t => !p.isPrefixOf t) with
  | nil => rw [hdw] at h; cases h
  | cons t ts =>
    rw [hdw] at h
    cases h
    simp

/-- C9: extract_question returns exactly the block the claim describes: the
non-empty texts from the first text with the "N." prefix up to just before
the first later text with the "N+1." prefix (to the end when there is none),
joined with newlines, and None when no text carries the "N." prefix. -/
theorem C9_extract_question_eq (content : List (List Char)) (n : Nat) :
    extract_question content n = spec_extract_question content n := by
  have hx : ∀ x : List Char, (pfxNum n).isPrefixOf x = true →
      (pfxNum (n + 1)).isPrefixOf x = false := pfxNum_excl n
  unfold extract_question spec_extract_question
  rw [egLoop_scanning (pfxNum n) (pfxNum (n + 1)) hx content]
  cases hsp : specBlockTexts (pfxNum n) (pfxNum (n + 1)) content with
  | none => simp
  | some b =>
    have hb : b ≠ [] := specBlockTexts_ne_nil hsp
    simp [hb]
